import Mathlib

/-!
Verification of the QLoRA parameter-efficient fine-tuning notebook
(`01-PEFT_QLora-PB2.ipynb`) against its natural-language specification.

The notebook configures 4-bit NF4 quantization with double quantization
(`BitsAndBytesConfig`), injects LoRA adapters (`LoraConfig` with `r = 8`,
`lora_alpha = 32`, `lora_dropout = 0.05`, target module `"query_key_value"`),
trains with `transformers.Trainer` (train batch size 16), saves and reloads
the adapter with `save_pretrained` / `PeftModel.from_pretrained`, and runs
generation.  Behavior implemented inside the PEFT / bitsandbytes /
transformers libraries is not part of the repository's own sources, so those
operations are modelled from the specification; definitions taken directly
from notebook cells say so in their doc comments.
-/

namespace QLora

/-! ## Notebook configuration constants (from the `LoraConfig` and `Trainer` cells) -/

/-- LoRA rank `r = 8`, from the notebook's `LoraConfig`. -/
def loraConfigR : ℕ := 8

/-- `lora_alpha = 32`, from the notebook's `LoraConfig`. -/
def loraConfigAlpha : ℕ := 32

/-- `target_modules = ["query_key_value"]`, from the notebook's `LoraConfig`. -/
def loraTargetModules : List String := ["query_key_value"]

/-- `lora_dropout = 0.05`, from the notebook's `LoraConfig`. -/
def loraDropoutP : ℚ := 5/100

/-- `per_device_train_batch_size = 16`, from the notebook's `TrainingArguments`. -/
def trainerBatchSize : ℕ := 16

/-- Scaling factor of a LoRA adapter, `lora_alpha / r` as used by the PEFT
library the notebook configures. -/
def loraScaling (alpha r : ℕ) : ℚ := (alpha : ℚ) / (r : ℚ)

/-! ## C9: generation-config assignments (notebook inference-configuration cells)

The cells read

```
generation_config = model.generation_config
generation_config.max_new_tokens = 50
generation_config_temperature = 0.7
generation_config.top_p = 0.7
generation_config.num_return_sequences = 1
generation_config.pad_token_id = tokenizer.eos_token_id
generation_config_eod_token_id = tokenizer.eos_token_id
generation_config.repetition_penalty = 1.1
```

Note the two assignments written with an underscore instead of a dot:
they bind fresh standalone Python variables and do not touch the
generation-config object. -/

/-- The fields of a Hugging Face generation config that the notebook's
inference cells interact with. -/
structure GenerationConfig where
  maxNewTokens : ℕ
  temperature : ℚ
  topP : ℚ
  numReturnSequences : ℕ
  padTokenId : ℕ
  eosTokenId : ℕ
  repetitionPenalty : ℚ
deriving DecidableEq

/-- The inference-configuration cell, as written in the notebook: it mutates
`max_new_tokens`, `top_p`, `num_return_sequences`, `pad_token_id` and
`repetition_penalty` on the config object.  The lines
`generation_config_temperature = 0.7` and
`generation_config_eod_token_id = tokenizer.eos_token_id` bind standalone
variables (see `generationConfigTemperatureVar`,
`generationConfigEodTokenIdVar`) and leave the object alone. -/
def setInferenceConfig (gc : GenerationConfig) (eosTokenId : ℕ) : GenerationConfig :=
  { gc with
      maxNewTokens := 50
      topP := 7/10
      numReturnSequences := 1
      padTokenId := eosTokenId
      repetitionPenalty := 11/10 }

/-- The fresh standalone variable bound by `generation_config_temperature = 0.7`. -/
def generationConfigTemperatureVar : ℚ := 7/10

/-- The fresh standalone variable bound by
`generation_config_eod_token_id = tokenizer.eos_token_id`. -/
def generationConfigEodTokenIdVar (eosTokenId : ℕ) : ℕ := eosTokenId

/-- Claim C9: the inference-configuration step sets exactly
`max_new_tokens`, `top_p`, `num_return_sequences`, `pad_token_id` and
`repetition_penalty` on the model's generation config, while the config's
sampling temperature and end-of-sequence token id keep their loaded values,
because the temperature and eod-token assignments bind fresh standalone
variables rather than fields of the config object. -/
theorem c9_generation_config_frame (gc : GenerationConfig) (eosTokenId : ℕ) :
    (setInferenceConfig gc eosTokenId).temperature = gc.temperature ∧
    (setInferenceConfig gc eosTokenId).eosTokenId = gc.eosTokenId ∧
    (setInferenceConfig gc eosTokenId).maxNewTokens = 50 ∧
    (setInferenceConfig gc eosTokenId).topP = 7/10 ∧
    (setInferenceConfig gc eosTokenId).numReturnSequences = 1 ∧
    (setInferenceConfig gc eosTokenId).padTokenId = eosTokenId ∧
    (setInferenceConfig gc eosTokenId).repetitionPenalty = 11/10 :=
  ⟨rfl, rfl, rfl, rfl, rfl, rfl, rfl⟩

/-! ## C10: train/eval dataset split (notebook `ReadInstruction` cell)

The cell reads

```
dataset_split = [
    datasets.ReadInstruction('train', to=10, unit='%'),
    datasets.ReadInstruction('train', from_=-5, unit='%')
]
train_dataset, eval_dataset = load_dataset(..., split=dataset_split)
```

`ReadInstruction` semantics are provided by the external `datasets`
library.  Modelled from the spec: percentage boundaries are resolved to
absolute indices by rounding to the nearest record (`rounding='closest'`,
the library default, with halves rounded up here); `to=10` selects the
records before the 10%-boundary and `from_=-5` selects the records from the
5%-from-the-end boundary onwards. -/

/-- Absolute index for a `p`-percent boundary in a dataset of `n` records,
rounding to the nearest record. -/
def pctBoundary (n p : ℕ) : ℕ := (p * n + 50) / 100

/-- Number of records in the `to=10, unit='%'` training split. -/
def trainTake (n : ℕ) : ℕ := pctBoundary n 10

/-- Number of records in the `from_=-5, unit='%'` evaluation split. -/
def evalTake (n : ℕ) : ℕ := pctBoundary n 5

/-- The training split: the first 10% of the source records. -/
def trainSplit {α : Type} (l : List α) : List α := l.take (trainTake l.length)

/-- The evaluation split: the last 5% of the source records. -/
def evalSplit {α : Type} (l : List α) : List α := l.drop (l.length - evalTake l.length)

/-- The index range of the training split in a source of `n` records. -/
def trainIndexRange (n : ℕ) : Finset ℕ := Finset.range (trainTake n)

/-- The index range of the evaluation split in a source of `n` records. -/
def evalIndexRange (n : ℕ) : Finset ℕ := Finset.Ico (n - evalTake n) n

theorem trainTake_add_evalTake_le (n : ℕ) : trainTake n + evalTake n ≤ n := by
  unfold trainTake evalTake pctBoundary
  omega

/-- Claim C10: the training set is the first 10% of the source records and
the evaluation set is the last 5%; for every source dataset the two index
ranges are disjoint, and each split preserves the source's record order
(the training split is an initial segment of the source and the evaluation
split a final segment). -/
theorem c10_split_disjoint {α : Type} (l : List α) :
    trainSplit l <+: l ∧
    evalSplit l <:+ l ∧
    Disjoint (trainIndexRange l.length) (evalIndexRange l.length) ∧
    (trainSplit l).length + (evalSplit l).length ≤ l.length := by
  refine ⟨⟨l.drop (trainTake l.length), List.take_append_drop _ l⟩,
    ⟨l.take (l.length - evalTake l.length), List.take_append_drop _ l⟩, ?_, ?_⟩
  · have h := trainTake_add_evalTake_le l.length
    refine Finset.disjoint_left.mpr ?_
    intro i hi hi'
    simp only [trainIndexRange, Finset.mem_range] at hi
    simp only [evalIndexRange, Finset.mem_Ico] at hi'
    omega
  · have h := trainTake_add_evalTake_le l.length
    simp only [trainSplit, evalSplit, List.length_take, List.length_drop]
    omega

/-! ## C7: inference input pairing (notebook generation cells)

The first generation cell reads

```
encoding = tokenizer(prompt, return_tensors="pt").to(DEVICE)
with torch.inference_mode():
    outputs = model.generate(
        input_ids=encoding.attention_mask,
        generation_config=generation_config,
    )
```

passing the attention mask where token ids are expected, while the later
`generate_response` helper passes `input_ids=encoding.input_ids,
attention_mask=encoding.attention_mask`. -/

/-- A tokenizer result: the token-id tensor and the attention-mask tensor. -/
structure Encoding where
  inputIds : List ℕ
  attentionMask : List ℕ
deriving DecidableEq

/-- The tensors a call to `model.generate` receives. -/
structure GenerateArgs where
  inputIdsArg : List ℕ
  attentionMaskArg : Option (List ℕ)
deriving DecidableEq

/-- The arguments of the notebook's first generation cell, as written:
`input_ids=encoding.attention_mask` and no attention-mask argument. -/
def promptCellGenerateArgs (enc : Encoding) : GenerateArgs :=
  { inputIdsArg := enc.attentionMask, attentionMaskArg := none }

/-- The arguments built by the notebook's `generate_response` helper:
`input_ids=encoding.input_ids, attention_mask=encoding.attention_mask`. -/
def generateResponseArgs (enc : Encoding) : GenerateArgs :=
  { inputIdsArg := enc.inputIds, attentionMaskArg := some enc.attentionMask }

/-- A concrete encoding of the prompt `"What are the treatments for ARDS?"`:
distinct token ids beside an all-ones attention mask. -/
def ardsEncoding : Encoding :=
  { inputIds := [1562, 362, 248, 9061, 312, 329, 37, 8143, 42],
    attentionMask := [1, 1, 1, 1, 1, 1, 1, 1, 1] }

/-- Claim C7: every generation call should receive the tokenizer's token-id
tensor as `input_ids`.  The notebook's first generation cell instead passes
the attention-mask tensor as `input_ids`: on the ARDS prompt's encoding the
argument it builds equals the attention mask and differs from the token
ids, while the later `generate_response` helper pairs the tensors
correctly. -/
theorem c7_prompt_cell_swaps_inputs :
    (promptCellGenerateArgs ardsEncoding).inputIdsArg = ardsEncoding.attentionMask ∧
    (promptCellGenerateArgs ardsEncoding).inputIdsArg ≠ ardsEncoding.inputIds ∧
    (generateResponseArgs ardsEncoding).inputIdsArg = ardsEncoding.inputIds ∧
    (generateResponseArgs ardsEncoding).attentionMaskArg = some ardsEncoding.attentionMask := by
  refine ⟨rfl, ?_, rfl, rfl⟩
  decide

/-! ## Low-Rank Adapter Module and Model Graph Wrapper (C1, C4)

The LoRA layer itself lives in the PEFT library, not in the notebook.
Modelled from the spec: a targeted layer computes
`forward(x) = x @ frozen + scaling * ((dropout x) @ down) @ up`, with `down`
of shape `(in_features, r)` initialized to small random values and `up` of
shape `(r, out_features)` initialized to zero; untargeted layers pass
through the frozen path only.  Real arithmetic is modelled over `ℚ`. -/

/-- An AdapterPair: the down-projection `(dIn, r)` and up-projection
`(r, dOut)` matrices of one injected LoRA adapter. -/
structure AdapterPair (dIn dOut r : ℕ) where
  down : Matrix (Fin dIn) (Fin r) ℚ
  up : Matrix (Fin r) (Fin dOut) ℚ

/-- A layer of the wrapped model graph: the frozen (dequantized) weight and
zero-or-one attached AdapterPair. -/
structure WrappedLayer (dIn dOut r : ℕ) where
  name : String
  frozen : Matrix (Fin dIn) (Fin dOut) ℚ
  adapter : Option (AdapterPair dIn dOut r)

/-- A layer of the unmodified frozen base model. -/
structure BaseLayer (dIn dOut : ℕ) where
  name : String
  weight : Matrix (Fin dIn) (Fin dOut) ℚ

/-- Forward pass of the frozen path of one base layer. -/
def baseLayerForward {dIn dOut : ℕ} (B : BaseLayer dIn dOut) (x : Fin dIn → ℚ) :
    Fin dOut → ℚ :=
  Matrix.vecMul x B.weight

/-- Forward pass of one wrapped layer: the frozen path, plus — when an
adapter is attached — `scaling * ((mask x) @ down) @ up`, where `mask` is
the dropout applied to the adapter's input activations only. -/
def wrappedLayerForward {dIn dOut r : ℕ} (scaling : ℚ)
    (mask : (Fin dIn → ℚ) → (Fin dIn → ℚ)) (L : WrappedLayer dIn dOut r)
    (x : Fin dIn → ℚ) : Fin dOut → ℚ :=
  match L.adapter with
  | none => Matrix.vecMul x L.frozen
  | some a =>
      Matrix.vecMul x L.frozen + scaling • Matrix.vecMul (Matrix.vecMul (mask x) a.down) a.up

/-- Forward pass of the whole wrapped model graph (layers composed in
order; all layers share width `d`). -/
def modelForward {d r : ℕ} (scaling : ℚ) (mask : (Fin d → ℚ) → (Fin d → ℚ))
    (layers : List (WrappedLayer d d r)) (x : Fin d → ℚ) : Fin d → ℚ :=
  layers.foldl (fun acc L => wrappedLayerForward scaling mask L acc) x

/-- Forward pass of the unmodified frozen base model. -/
def baseModelForward {d : ℕ} (layers : List (BaseLayer d d)) (x : Fin d → ℚ) :
    Fin d → ℚ :=
  layers.foldl (fun acc B => baseLayerForward B acc) x

/-- Adapter injection at initialization time: every layer whose name is in
the configured target set receives an AdapterPair whose down-projection is
the (arbitrary) random initial value `downInit` for that layer and whose
up-projection starts at zero; all other layers pass through unmodified. -/
def injectAdapters {dIn dOut r : ℕ} (targets : List String)
    (downInit : String → Matrix (Fin dIn) (Fin r) ℚ) (base : List (BaseLayer dIn dOut)) :
    List (WrappedLayer dIn dOut r) :=
  base.map fun B =>
    { name := B.name
      frozen := B.weight
      adapter := if B.name ∈ targets then some ⟨downInit B.name, 0⟩ else none }

theorem wrappedLayerForward_up_zero {dIn dOut r : ℕ} (scaling : ℚ)
    (mask : (Fin dIn → ℚ) → (Fin dIn → ℚ)) (L : WrappedLayer dIn dOut r)
    (h : ∀ a ∈ L.adapter, a.up = 0) (x : Fin dIn → ℚ) :
    wrappedLayerForward scaling mask L x = Matrix.vecMul x L.frozen := by
  unfold wrappedLayerForward
  cases ha : L.adapter with
  | none => rfl
  | some a =>
      have hup : a.up = 0 := h a (by simp [ha])
      simp [hup, Matrix.vecMul_zero]

/-- Claim C1: immediately after adapter injection (rank `r`, any scaling
and dropout mask, targets matched by name) and before any training step,
the wrapped model's forward output equals the unmodified frozen base
model's forward output on every input, because every injected AdapterPair's
up-projection starts at zero.  Over `ℚ` the agreement is exact. -/
theorem c1_noop_at_init {d r : ℕ} (targets : List String)
    (downInit : String → Matrix (Fin d) (Fin r) ℚ) (scaling : ℚ)
    (mask : (Fin d → ℚ) → (Fin d → ℚ)) (base : List (BaseLayer d d)) (x : Fin d → ℚ) :
    modelForward scaling mask (injectAdapters targets downInit base) x =
      baseModelForward base x := by
  induction base generalizing x with
  | nil => rfl
  | cons B rest ih =>
      have hlayer :
          wrappedLayerForward scaling mask
              { name := B.name, frozen := B.weight,
                adapter := if B.name ∈ targets then some ⟨downInit B.name, 0⟩ else none } x =
            Matrix.vecMul x B.weight := by
        apply wrappedLayerForward_up_zero
        intro a ha
        by_cases hmem : B.name ∈ targets
        · simp [hmem] at ha
          rw [← ha]
        · simp [hmem] at ha
      simpa [injectAdapters, modelForward, baseModelForward, baseLayerForward, hlayer]
        using ih (Matrix.vecMul x B.weight)

/-- Claim C4: on a targeted layer the adapter path computes
`scaling * (x @ down) @ up` — `down` of shape `(in_features, r)`, `up` of
shape `(r, out_features)` — added to the frozen path's output, with the
scaling derived from the notebook's configuration `lora_alpha = 32`,
`r = 8` as `lora_alpha / r = 4`; with dropout disabled the adapter input is
`x` itself. -/
theorem c4_adapter_forward_contract {dIn dOut : ℕ}
    (L : WrappedLayer dIn dOut loraConfigR) (a : AdapterPair dIn dOut loraConfigR)
    (h : L.adapter = some a) (x : Fin dIn → ℚ) :
    wrappedLayerForward (loraScaling loraConfigAlpha loraConfigR) id L x =
      Matrix.vecMul x L.frozen +
        (4 : ℚ) • Matrix.vecMul (Matrix.vecMul x a.down) a.up := by
  have hs : loraScaling loraConfigAlpha loraConfigR = 4 := by
    norm_num [loraScaling, loraConfigAlpha, loraConfigR]
  unfold wrappedLayerForward
  rw [h]
  simp [hs]

/-- A concrete all-ones AdapterPair on a 1-dimensional layer, for the C4
witness. -/
def onesAdapter : AdapterPair 1 1 loraConfigR :=
  ⟨Matrix.of fun _ _ => (1 : ℚ), Matrix.of fun _ _ => (1 : ℚ)⟩

/-- A concrete targeted 1-dimensional layer carrying `onesAdapter`, for the
C4 witness. -/
def onesLayer : WrappedLayer 1 1 loraConfigR :=
  { name := "query_key_value", frozen := Matrix.of fun _ _ => (1 : ℚ),
    adapter := some onesAdapter }

/-- Witness for C4: the concrete layer `onesLayer` satisfies the adapter
forward contract at the constant input `1`. -/
theorem c4_adapter_forward_contract_witness :
    onesLayer.adapter = some onesAdapter ∧
      wrappedLayerForward (loraScaling loraConfigAlpha loraConfigR) id onesLayer 1 =
        Matrix.vecMul 1 onesLayer.frozen +
          (4 : ℚ) • Matrix.vecMul (Matrix.vecMul 1 onesAdapter.down) onesAdapter.up :=
  ⟨rfl, c4_adapter_forward_contract onesLayer onesAdapter rfl 1⟩

/-! ## C2: trainable-parameter invariant

`prepare_model_for_kbit_training` and `get_peft_model` live in the PEFT
library.  Modelled from the spec: the preparation step marks every base
parameter non-trainable; injection then adds, for each targeted layer of
width `dim`, one AdapterPair of `r * dim + dim * r = 2 * r * dim` trainable
parameters.  `print_trainable_parameters` (which is in the notebook) sums
`numel` over parameters with `requires_grad` and over all parameters. -/

/-- A named parameter of the model: its element count and trainability flag. -/
structure NamedParam where
  name : String
  numel : ℕ
  requiresGrad : Bool
deriving DecidableEq

/-- A targeted weight matrix of the base model, identified by name, with
square width `dim` (the spec counts `2 × r × dim` adapter parameters per
targeted layer). -/
structure LayerSpec where
  name : String
  dim : ℕ
deriving DecidableEq

/-- The base model's parameter list: one `dim × dim` weight per layer,
trainable as loaded. -/
def baseParams (layers : List LayerSpec) : List NamedParam :=
  layers.map fun L => ⟨L.name, L.dim * L.dim, true⟩

/-- The preparation step: mark every parameter non-trainable. -/
def freezeAll (ps : List NamedParam) : List NamedParam :=
  ps.map fun p => { p with requiresGrad := false }

/-- Adapter injection: for each layer whose name is in the target set, add
the AdapterPair's two trainable parameter tensors, of `r * dim` and
`dim * r` elements. -/
def adapterParams (r : ℕ) (targets : List String) (layers : List LayerSpec) :
    List NamedParam :=
  (layers.filter fun L => L.name ∈ targets).flatMap fun L =>
    [⟨L.name ++ ".lora_A", r * L.dim, true⟩, ⟨L.name ++ ".lora_B", L.dim * r, true⟩]

/-- Freeze-and-inject: the parameter list after
`prepare_model_for_kbit_training` followed by `get_peft_model`. -/
def prepareAndInject (r : ℕ) (targets : List String) (layers : List LayerSpec) :
    List NamedParam :=
  freezeAll (baseParams layers) ++ adapterParams r targets layers

/-- `trainable_params` of the notebook's `print_trainable_parameters`:
total element count of the parameters with `requires_grad`. -/
def trainableParamCount (ps : List NamedParam) : ℕ :=
  ((ps.filter fun p => p.requiresGrad).map fun p => p.numel).sum

/-- `all_param` of the notebook's `print_trainable_parameters`: total
element count of all parameters. -/
def allParamCount (ps : List NamedParam) : ℕ :=
  (ps.map fun p => p.numel).sum

/-- Gradient contribution of one parameter: the optimizer routes gradients
only to parameters with `requires_grad`; frozen parameters contribute zero. -/
def gradContribution (g : NamedParam → ℚ) (p : NamedParam) : ℚ :=
  if p.requiresGrad then g p else 0

theorem trainable_prepareAndInject (r : ℕ) (targets : List String)
    (layers : List LayerSpec) :
    (prepareAndInject r targets layers).filter (fun p => p.requiresGrad) =
      adapterParams r targets layers := by
  unfold prepareAndInject
  rw [List.filter_append]
  have h1 : (freezeAll (baseParams layers)).filter (fun p => p.requiresGrad) = [] := by
    simp [freezeAll, List.filter_eq_nil_iff]
  have h2 : (adapterParams r targets layers).filter (fun p => p.requiresGrad) =
      adapterParams r targets layers := by
    rw [List.filter_eq_self]
    intro p hp
    simp only [adapterParams, List.mem_flatMap, List.mem_cons,
      List.not_mem_nil, or_false] at hp
    obtain ⟨L, -, rfl | rfl⟩ := hp <;> rfl
  rw [h1, h2, List.nil_append]

theorem adapterParams_sum (r : ℕ) (targets : List String) (layers : List LayerSpec) :
    ((adapterParams r targets layers).map fun p => p.numel).sum =
      (((layers.filter fun L => L.name ∈ targets)).map fun L => 2 * r * L.dim).sum := by
  unfold adapterParams
  induction (layers.filter fun L => L.name ∈ targets) with
  | nil => rfl
  | cons L rest ih =>
      simp only [List.flatMap_cons, List.map_append, List.sum_append, List.map_cons,
        List.sum_cons, List.map_nil, List.sum_nil, ih]
      ring

theorem list_sum_lt_sum {α : Type} (f g : α → ℕ) :
    ∀ (l : List α), l ≠ [] → (∀ x ∈ l, f x < g x) →
      (l.map f).sum < (l.map g).sum := by
  intro l
  induction l with
  | nil => intro h; exact absurd rfl h
  | cons a rest ih =>
      intro _ hall
      simp only [List.map_cons, List.sum_cons]
      have ha : f a < g a := hall a (by simp)
      have hrest : (rest.map f).sum ≤ (rest.map g).sum := by
        apply List.sum_le_sum
        intro x hx
        exact le_of_lt (hall x (List.mem_cons_of_mem a hx))
      omega

theorem filtered_dims_le_base (targets : List String) (layers : List LayerSpec) :
    (((layers.filter fun L => L.name ∈ targets)).map fun L => L.dim * L.dim).sum ≤
      ((baseParams layers).map fun p => p.numel).sum := by
  have h1 : ((layers.filter fun L => L.name ∈ targets).map
      fun L => L.dim * L.dim).Sublist (layers.map fun L => L.dim * L.dim) :=
    (List.filter_sublist layers).map _
  have h2 := h1.sum_le_sum (fun a _ => Nat.zero_le a)
  simpa [baseParams, List.map_map, Function.comp] using h2

/-- Claim C2: after the freeze-and-inject preparation, exactly the
AdapterPair parameters are trainable; the trainable count equals the sum of
AdapterPair sizes (`2 * r * dim` per targeted layer); when at least one
layer is targeted and every targeted layer satisfies `200 * r < dim` (true
for the notebook's `r = 8` against Falcon-7B's `query_key_value` width),
the trainable count is strictly below 1% of the total count; and frozen
parameters contribute zero gradient. -/
theorem c2_trainable_invariant (r : ℕ) (targets : List String)
    (layers : List LayerSpec) (g : NamedParam → ℚ)
    (hne : (layers.filter fun L => L.name ∈ targets) ≠ [])
    (hdim : ∀ L ∈ layers.filter fun L => L.name ∈ targets, 200 * r < L.dim) :
    ((prepareAndInject r targets layers).filter (fun p => p.requiresGrad) =
        adapterParams r targets layers) ∧
      trainableParamCount (prepareAndInject r targets layers) =
        (((layers.filter fun L => L.name ∈ targets)).map fun L => 2 * r * L.dim).sum ∧
      100 * trainableParamCount (prepareAndInject r targets layers) <
        allParamCount (prepareAndInject r targets layers) ∧
      ∀ p ∈ prepareAndInject r targets layers, p.requiresGrad = false →
        gradContribution g p = 0 := by
  have hfilter := trainable_prepareAndInject r targets layers
  have hsum : trainableParamCount (prepareAndInject r targets layers) =
      (((layers.filter fun L => L.name ∈ targets)).map fun L => 2 * r * L.dim).sum := by
    unfold trainableParamCount
    rw [hfilter, adapterParams_sum]
  refine ⟨hfilter, hsum, ?_, ?_⟩
  · have hlt : ((((layers.filter fun L => L.name ∈ targets)).map
        fun L => 100 * (2 * r * L.dim)).sum) <
        (((layers.filter fun L => L.name ∈ targets)).map fun L => L.dim * L.dim).sum := by
      apply list_sum_lt_sum _ _ _ hne
      intro L hL
      have hd := hdim L hL
      have hdpos : 0 < L.dim := by omega
      calc 100 * (2 * r * L.dim) = (200 * r) * L.dim := by ring
        _ < L.dim * L.dim := (Nat.mul_lt_mul_right hdpos).mpr hd
    have hbase := filtered_dims_le_base targets layers
    have htotal : allParamCount (prepareAndInject r targets layers) =
        ((baseParams layers).map fun p => p.numel).sum +
          ((adapterParams r targets layers).map fun p => p.numel).sum := by
      unfold allParamCount prepareAndInject freezeAll
      rw [List.map_append, List.sum_append, List.map_map]
      rfl
    have hconst : ((((layers.filter fun L => L.name ∈ targets)).map
        fun L => 100 * (2 * r * L.dim)).sum) =
        100 * (((layers.filter fun L => L.name ∈ targets)).map
          fun L => 2 * r * L.dim).sum := by
      rw [← List.sum_map_mul_left]
    rw [hsum, htotal, adapterParams_sum]
    omega
  · intro p _ hp
    simp [gradContribution, hp]

/-- Witness for C2: one targeted `query_key_value` layer of width 4544
(Falcon-7B's hidden size) with `r = 8` satisfies the hypotheses of the
trainable-parameter invariant. -/
theorem c2_trainable_invariant_witness :
    (([⟨"query_key_value", 4544⟩] : List LayerSpec).filter
        (fun L => L.name ∈ loraTargetModules) ≠ [] ∧
      ∀ L ∈ ([⟨"query_key_value", 4544⟩] : List LayerSpec).filter
          (fun L => L.name ∈ loraTargetModules), 200 * loraConfigR < L.dim) ∧
    (((prepareAndInject loraConfigR loraTargetModules [⟨"query_key_value", 4544⟩]).filter
          (fun p => p.requiresGrad) =
        adapterParams loraConfigR loraTargetModules [⟨"query_key_value", 4544⟩]) ∧
      trainableParamCount
          (prepareAndInject loraConfigR loraTargetModules [⟨"query_key_value", 4544⟩]) =
        ((([⟨"query_key_value", 4544⟩] : List LayerSpec).filter
            (fun L => L.name ∈ loraTargetModules)).map
          fun L => 2 * loraConfigR * L.dim).sum ∧
      100 * trainableParamCount
          (prepareAndInject loraConfigR loraTargetModules [⟨"query_key_value", 4544⟩]) <
        allParamCount
          (prepareAndInject loraConfigR loraTargetModules [⟨"query_key_value", 4544⟩]) ∧
      ∀ p ∈ prepareAndInject loraConfigR loraTargetModules [⟨"query_key_value", 4544⟩],
        p.requiresGrad = false → gradContribution (fun _ => 1) p = 0) :=
  ⟨⟨by decide, by decide⟩,
    c2_trainable_invariant loraConfigR loraTargetModules [⟨"query_key_value", 4544⟩]
      (fun _ => 1) (by decide) (by decide)⟩

/-! ## C5: training-step frame property

`trainer.train()` drives the optimizer inside the transformers library.
Modelled from the spec: an optimizer step updates only the AdapterPair
values (`a - lr * g` elementwise); the QuantizedMatrix codes and scale
metadata are not part of the optimizer's parameter set and the frozen base
is never written. -/

/-- A training record (token-id sequence) of a batch. -/
abbrev TrainRecord : Type := List ℕ

/-- The mutable-vs-frozen training state: the stored 4-bit codes and scale
metadata of every QuantizedMatrix, plus the flattened AdapterPair values. -/
structure TrainState where
  blockCodes : List (List ℚ)
  scaleMeta : List ℚ
  adapterValues : List ℚ
deriving DecidableEq

/-- One optimizer step at learning rate `lr` with gradients `grads`: each
adapter value moves against its gradient; nothing else is touched. -/
def optimizerStep (lr : ℚ) (grads : List ℚ) (s : TrainState) : TrainState :=
  { s with adapterValues := (s.adapterValues.zip grads).map fun p => p.1 - lr * p.2 }

/-- A training run of `n` optimizer steps, the gradients of step `i` given
by `gradsAt i`. -/
def runSteps (lr : ℚ) (gradsAt : ℕ → List ℚ) : ℕ → TrainState → TrainState
  | 0, s => s
  | n + 1, s => runSteps lr gradsAt n (optimizerStep lr (gradsAt n) s)

theorem runSteps_frozen (lr : ℚ) (gradsAt : ℕ → List ℚ) :
    ∀ (n : ℕ) (s : TrainState),
      (runSteps lr gradsAt n s).blockCodes = s.blockCodes ∧
        (runSteps lr gradsAt n s).scaleMeta = s.scaleMeta := by
  intro n
  induction n with
  | zero => exact fun s => ⟨rfl, rfl⟩
  | succ n ih =>
      intro s
      exact ih (optimizerStep lr (gradsAt n) s)

/-- Claim C5: one optimizer step on a training batch of 16 records (the
notebook's `per_device_train_batch_size`) changes the AdapterPair values —
given a nonzero learning rate and some nonzero gradient entry — while the
stored 4-bit codes and the scale metadata are bit-for-bit unchanged, and
they stay unchanged after any number of training steps. -/
theorem c5_training_step_frame (batch : List TrainRecord)
    (gradOf : List TrainRecord → List ℚ) (lr : ℚ) (s : TrainState) (i : ℕ)
    (_hbatch : batch.length = trainerBatchSize) (hlr : lr ≠ 0)
    (hi : i < s.adapterValues.length) (hi' : i < (gradOf batch).length)
    (hg : (gradOf batch).get ⟨i, hi'⟩ ≠ 0) :
    (optimizerStep lr (gradOf batch) s).blockCodes = s.blockCodes ∧
      (optimizerStep lr (gradOf batch) s).scaleMeta = s.scaleMeta ∧
      (optimizerStep lr (gradOf batch) s).adapterValues ≠ s.adapterValues ∧
      ∀ (n : ℕ) (gradsAt : ℕ → List ℚ),
        (runSteps lr gradsAt n s).blockCodes = s.blockCodes ∧
          (runSteps lr gradsAt n s).scaleMeta = s.scaleMeta := by
  refine ⟨rfl, rfl, ?_, fun n gradsAt => runSteps_frozen lr gradsAt n s⟩
  intro heq
  have hzip : i < (s.adapterValues.zip (gradOf batch)).length := by
    rw [List.length_zip]
    exact lt_min hi hi'
  have hmap : i < ((s.adapterValues.zip (gradOf batch)).map
      fun p => p.1 - lr * p.2).length := by
    rw [List.length_map]
    exact hzip
  have h1 := List.getElem_of_eq
    (show (optimizerStep lr (gradOf batch) s).adapterValues = s.adapterValues from heq)
    hmap
  simp only [optimizerStep, List.getElem_map, List.getElem_zip] at h1
  have h2 : lr * (gradOf batch)[i] = 0 := by linarith
  rcases mul_eq_zero.mp h2 with h | h
  · exact hlr h
  · exact hg (by simpa [List.get_eq_getElem] using h)

/-- Witness for C5: a concrete batch of 16 empty records, state with one
adapter value, gradient `[1]` and learning rate `1/10` satisfies the
training-step frame property. -/
theorem c5_training_step_frame_witness :
    ((List.replicate 16 ([] : List ℕ)).length = trainerBatchSize ∧
      (1/10 : ℚ) ≠ 0 ∧
      ((fun _ => [(1 : ℚ)]) (List.replicate 16 ([] : List ℕ)) : List ℚ).get
          ⟨0, by decide⟩ ≠ 0) ∧
    ((optimizerStep (1/10) ((fun _ => [(1 : ℚ)]) (List.replicate 16 ([] : List ℕ)))
          ⟨[[1]], [1], [1]⟩).blockCodes = ([[1]] : List (List ℚ)) ∧
      (optimizerStep (1/10) ((fun _ => [(1 : ℚ)]) (List.replicate 16 ([] : List ℕ)))
          ⟨[[1]], [1], [1]⟩).scaleMeta = ([1] : List ℚ) ∧
      (optimizerStep (1/10) ((fun _ => [(1 : ℚ)]) (List.replicate 16 ([] : List ℕ)))
          ⟨[[1]], [1], [1]⟩).adapterValues ≠ ([1] : List ℚ) ∧
      ∀ (n : ℕ) (gradsAt : ℕ → List ℚ),
        (runSteps (1/10) gradsAt n ⟨[[1]], [1], [1]⟩).blockCodes = ([[1]] : List (List ℚ)) ∧
          (runSteps (1/10) gradsAt n ⟨[[1]], [1], [1]⟩).scaleMeta = ([1] : List ℚ)) :=
  ⟨⟨by decide, by norm_num, by decide⟩,
    c5_training_step_frame (List.replicate 16 []) (fun _ => [1]) (1/10)
      ⟨[[1]], [1], [1]⟩ 0 (by decide) (by norm_num) (by decide) (by decide) (by decide)⟩

/-! ## C6: adapter persistence

`save_pretrained` / `PeftConfig.from_pretrained` / `PeftModel.from_pretrained`
live in the PEFT library.  Modelled from the spec: saving writes only the
adapter weights and their configuration (rank, scaling factor, target-layer
names, dropout rate) together with the recorded base-model identifier, never
the frozen base weights; loading against a base whose identifier differs
from the recorded one raises `PersistenceMismatchError` and does not
partially load. -/

/-- A persisted adapter artifact: adapter weights plus configuration,
identifying the exact base model it was trained against. -/
structure AdapterArtifact where
  adapterWeights : List ℚ
  rank : ℕ
  scalingAlpha : ℕ
  targetModules : List String
  dropoutRate : ℚ
  baseModelId : String
deriving DecidableEq

/-- The in-memory state of a PEFT model: the frozen base weights and
identifier, plus the adapter weights and configuration. -/
structure PeftModelState where
  baseWeights : List ℚ
  baseModelId : String
  adapterWeights : List ℚ
  rank : ℕ
  scalingAlpha : ℕ
  targetModules : List String
  dropoutRate : ℚ
deriving DecidableEq

/-- The persistence errors of the design's error taxonomy. -/
inductive PersistenceError where
  | persistenceMismatch : PersistenceError
deriving DecidableEq

/-- `save_pretrained`: write the adapter weights and their configuration,
recording the base-model identifier — never the base weights. -/
def savePretrained (m : PeftModelState) : AdapterArtifact :=
  { adapterWeights := m.adapterWeights
    rank := m.rank
    scalingAlpha := m.scalingAlpha
    targetModules := m.targetModules
    dropoutRate := m.dropoutRate
    baseModelId := m.baseModelId }

/-- `PeftModel.from_pretrained`: attach a saved artifact to the currently
loaded base model, failing fast with `PersistenceMismatchError` when the
artifact's recorded base identifier differs from the current base's. -/
def loadPretrained (art : AdapterArtifact) (currentBaseId : String)
    (currentBaseWeights : List ℚ) : Except PersistenceError PeftModelState :=
  if art.baseModelId = currentBaseId then
    .ok { baseWeights := currentBaseWeights
          baseModelId := currentBaseId
          adapterWeights := art.adapterWeights
          rank := art.rank
          scalingAlpha := art.scalingAlpha
          targetModules := art.targetModules
          dropoutRate := art.dropoutRate }
  else .error .persistenceMismatch

/-- Claim C6: saving writes only the adapter weights and configuration —
the artifact does not depend on the frozen base weights — and loading a
saved artifact against a base model whose identifier differs from the
recorded one yields `PersistenceMismatchError` rather than proceeding. -/
theorem c6_persistence (m : PeftModelState) (w : List ℚ) (art : AdapterArtifact)
    (currentBaseId : String) (currentBaseWeights : List ℚ)
    (hmismatch : art.baseModelId ≠ currentBaseId) :
    savePretrained { m with baseWeights := w } = savePretrained m ∧
      loadPretrained art currentBaseId currentBaseWeights =
        .error .persistenceMismatch := by
  refine ⟨rfl, ?_⟩
  unfold loadPretrained
  rw [if_neg hmismatch]

/-- Witness for C6: a concrete artifact recorded against `"tiiuae/falcon-7b"`
is rejected when loaded against a base identified as `"other-base"`. -/
theorem c6_persistence_witness :
    ((⟨[1], 8, 32, ["query_key_value"], 5/100, "tiiuae/falcon-7b"⟩ :
        AdapterArtifact).baseModelId ≠ "other-base") ∧
    (savePretrained { (⟨[2], "tiiuae/falcon-7b", [1], 8, 32, ["query_key_value"],
          5/100⟩ : PeftModelState) with baseWeights := [3] } =
        savePretrained (⟨[2], "tiiuae/falcon-7b", [1], 8, 32, ["query_key_value"],
          5/100⟩ : PeftModelState) ∧
      loadPretrained (⟨[1], 8, 32, ["query_key_value"], 5/100, "tiiuae/falcon-7b"⟩ :
          AdapterArtifact) "other-base" [] = .error .persistenceMismatch) :=
  ⟨by decide,
    c6_persistence ⟨[2], "tiiuae/falcon-7b", [1], 8, 32, ["query_key_value"], 5/100⟩
      [3] ⟨[1], 8, 32, ["query_key_value"], 5/100, "tiiuae/falcon-7b"⟩
      "other-base" [] (by decide)⟩

/-! ## C8: per-batch error recovery in the Training Loop Controller

The loop is driven by `transformers.Trainer`, outside src/.  Modelled from
the spec: a step that raises a device-memory exhaustion error is fatal and
aborts the run; a single malformed batch (shape mismatch) is reported and
skipped, and the run continues with the next batch. -/

/-- The outcome of attempting one training step on one batch. -/
inductive StepOutcome where
  | success : StepOutcome
  | shapeMismatchErr : StepOutcome
  | resourceExhaustionErr : StepOutcome
deriving DecidableEq

/-- The observable result of a training run: the batches whose steps
completed, the malformed batches reported and skipped, and whether the run
aborted fatally. -/
structure RunResult where
  completed : List TrainRecord
  reportedSkipped : List TrainRecord
  aborted : Bool
deriving DecidableEq

/-- The Training Loop Controller over a batch sequence: a successful step
records the batch and continues; a shape mismatch reports and skips the
batch and continues; resource exhaustion aborts the run at once. -/
def trainLoop (step : TrainRecord → StepOutcome) : List TrainRecord → RunResult
  | [] => ⟨[], [], false⟩
  | b :: rest =>
      match step b with
      | .success =>
          let r := trainLoop step rest
          { r with completed := b :: r.completed }
      | .shapeMismatchErr =>
          let r := trainLoop step rest
          { r with reportedSkipped := b :: r.reportedSkipped }
      | .resourceExhaustionErr => ⟨[], [], true⟩

theorem trainLoop_no_oom (step : TrainRecord → StepOutcome) :
    ∀ (batches : List TrainRecord),
      (∀ x ∈ batches, step x ≠ .resourceExhaustionErr) →
      (trainLoop step batches).aborted = false ∧
        (trainLoop step batches).completed =
          batches.filter (fun x => step x = .success) ∧
        (trainLoop step batches).reportedSkipped =
          batches.filter (fun x => step x = .shapeMismatchErr) := by
  intro batches
  induction batches with
  | nil => exact fun _ => ⟨rfl, rfl, rfl⟩
  | cons b rest ih =>
      intro h
      have hb := h b (by simp)
      have hrest := ih fun x hx => h x (List.mem_cons_of_mem b hx)
      cases hstep : step b with
      | success =>
          simp only [trainLoop, hstep, List.filter_cons, hstep]
          refine ⟨hrest.1, ?_, ?_⟩
          · simp [hrest.2.1]
          · simp [hrest.2.2]
      | shapeMismatchErr =>
          simp only [trainLoop, hstep, List.filter_cons]
          refine ⟨hrest.1, ?_, ?_⟩
          · simp [hrest.2.1]
          · simp [hrest.2.2]
      | resourceExhaustionErr => exact absurd hstep hb

/-- Claim C8: during a run over `pre ++ [bad] ++ post` in which no step
exhausts device memory and the single batch `bad` raises a shape mismatch,
the loop reports and skips exactly the malformed batch, completes every
other batch — including all of `post`, so the run continues past the
failure — and does not abort; whereas a batch raising resource exhaustion
aborts the run. -/
theorem c8_per_batch_recovery (step : TrainRecord → StepOutcome)
    (pre post : List TrainRecord) (bad : TrainRecord)
    (hbad : step bad = .shapeMismatchErr)
    (hrest : ∀ x ∈ pre ++ bad :: post, step x ≠ .resourceExhaustionErr)
    (hothers : ∀ x ∈ pre ++ post, step x = .success) :
    (trainLoop step (pre ++ bad :: post)).aborted = false ∧
      (trainLoop step (pre ++ bad :: post)).reportedSkipped = [bad] ∧
      (trainLoop step (pre ++ bad :: post)).completed = pre ++ post ∧
      ∀ (pre' post' : List TrainRecord) (oom : TrainRecord),
        step oom = .resourceExhaustionErr →
        (∀ x ∈ pre', step x ≠ .resourceExhaustionErr) →
        (trainLoop step (pre' ++ oom :: post')).aborted = true := by
  have hmain := trainLoop_no_oom step (pre ++ bad :: post) hrest
  have hpre : ∀ x ∈ pre, step x = .success := fun x hx =>
    hothers x (List.mem_append_left _ hx)
  have hpost : ∀ x ∈ post, step x = .success := fun x hx =>
    hothers x (List.mem_append_right _ hx)
  refine ⟨hmain.1, ?_, ?_, ?_⟩
  · rw [hmain.2.2]
    rw [List.filter_append, List.filter_cons]
    have h1 : pre.filter (fun x => step x = .shapeMismatchErr) = [] := by
      rw [List.filter_eq_nil_iff]
      intro x hx
      simp [hpre x hx]
    have h2 : post.filter (fun x => step x = .shapeMismatchErr) = [] := by
      rw [List.filter_eq_nil_iff]
      intro x hx
      simp [hpost x hx]
    simp [h1, h2, hbad]
  · rw [hmain.2.1]
    rw [List.filter_append, List.filter_cons]
    have h1 : pre.filter (fun x => step x = .success) = pre :=
      List.filter_eq_self.mpr fun x hx => by simp [hpre x hx]
    have h2 : post.filter (fun x => step x = .success) = post :=
      List.filter_eq_self.mpr fun x hx => by simp [hpost x hx]
    simp [h1, h2, hbad]
  · intro pre' post' oom hoom hpre'
    induction pre' with
    | nil => simp [trainLoop, hoom]
    | cons a rest ih =>
        have ha : step a ≠ .resourceExhaustionErr := hpre' a (by simp)
        have hrest' : ∀ x ∈ rest, step x ≠ .resourceExhaustionErr := fun x hx =>
          hpre' x (List.mem_cons_of_mem a hx)
        cases hstep : step a with
        | success => simpa [trainLoop, hstep] using ih hrest'
        | shapeMismatchErr => simpa [trainLoop, hstep] using ih hrest'
        | resourceExhaustionErr => exact absurd hstep ha

/-- Witness for C8: with a step function that fails with a shape mismatch
exactly on the batch `[1]`, the run over `[[0], [1], [2]]` skips `[1]`,
completes `[0]` and `[2]`, and does not abort; a step function can still
abort on resource exhaustion. -/
theorem c8_per_batch_recovery_witness :
    ((fun b => if b = [1] then StepOutcome.shapeMismatchErr else .success)
        ([1] : TrainRecord) = .shapeMismatchErr ∧
      (∀ x ∈ ([[0]] : List TrainRecord) ++ [1] :: [[2]],
        (fun b => if b = [1] then StepOutcome.shapeMismatchErr else .success) x ≠
          .resourceExhaustionErr) ∧
      ∀ x ∈ ([[0]] : List TrainRecord) ++ [[2]],
        (fun b => if b = [1] then StepOutcome.shapeMismatchErr else .success) x =
          .success) ∧
    ((trainLoop (fun b => if b = [1] then StepOutcome.shapeMismatchErr else .success)
          (([[0]] : List TrainRecord) ++ [1] :: [[2]])).aborted = false ∧
      (trainLoop (fun b => if b = [1] then StepOutcome.shapeMismatchErr else .success)
          (([[0]] : List TrainRecord) ++ [1] :: [[2]])).reportedSkipped = [[1]] ∧
      (trainLoop (fun b => if b = [1] then StepOutcome.shapeMismatchErr else .success)
          (([[0]] : List TrainRecord) ++ [1] :: [[2]])).completed =
        ([[0]] : List TrainRecord) ++ [[2]] ∧
      ∀ (pre' post' : List TrainRecord) (oom : TrainRecord),
        (fun b => if b = [1] then StepOutcome.shapeMismatchErr else .success) oom =
          .resourceExhaustionErr →
        (∀ x ∈ pre',
          (fun b => if b = [1] then StepOutcome.shapeMismatchErr else .success) x ≠
            .resourceExhaustionErr) →
        (trainLoop (fun b => if b = [1] then StepOutcome.shapeMismatchErr else .success)
            (pre' ++ oom :: post')).aborted = true) :=
  ⟨⟨by decide, by decide, by decide⟩,
    c8_per_batch_recovery (fun b => if b = [1] then StepOutcome.shapeMismatchErr
      else .success) [[0]] [[2]] [1] (by decide) (by decide) (by decide)⟩

/-! ## C3: 4-bit NF4 block quantization with double quantization

`BitsAndBytesConfig(load_in_4bit=True, bnb_4bit_use_double_quant=True,
bnb_4bit_quant_type="nf4", ...)` selects quantization code inside the
bitsandbytes library.  Modelled from the spec: each block of a weight
matrix stores one scale — the block's absolute maximum — and maps each
value to the nearest entry of a fixed non-uniform 16-entry code table that
is denser near zero and contains `-1`, `0` and `1`; double quantization
additionally maps each block scale to the nearest entry of a uniform
257-entry second-level table scaled by the absolute maximum of the scales.
Real arithmetic is modelled over `ℚ`. -/

/-- The 16-entry NF4 code table (normalized-float values, denser near
zero, spanning `[-1, 1]`). -/
def nf4Table : List ℚ :=
  [-1, -6962/10000, -5251/10000, -3949/10000, -2844/10000, -1848/10000,
   -911/10000, 0, 796/10000, 1609/10000, 2461/10000, 3379/10000,
   4407/10000, 5626/10000, 7230/10000, 1]

/-- The largest gap between adjacent NF4 codes (between `-1` and
`-0.6962`); one "code step" of a block is this gap times the block scale. -/
def nf4MaxGap : ℚ := 3038/10000

/-- The second-level code table used for double quantization of the block
scales: 257 uniform codes spanning `[0, 1]`. -/
def scaleTable : List ℚ := (List.range 257).map fun k : ℕ => (k : ℚ) / 256

/-- Gap between adjacent second-level codes. -/
def scaleStep : ℚ := 1/256

/-- The table entry nearest to `t` (the first one, on ties). -/
def nearestIn (t : ℚ) : List ℚ → ℚ
  | [] => 0
  | c :: cs => cs.foldl (fun best x => if |t - x| < |t - best| then x else best) c

theorem foldl_nearest_mem (t : ℚ) :
    ∀ (l : List ℚ) (init : ℚ),
      l.foldl (fun best x => if |t - x| < |t - best| then x else best) init ∈
        init :: l := by
  intro l
  induction l with
  | nil => intro init; simp
  | cons x xs ih =>
      intro init
      have h := ih (if |t - x| < |t - init| then x else init)
      rw [List.foldl_cons]
      rcases List.mem_cons.mp h with h' | h'
      · rw [h']
        by_cases hc : |t - x| < |t - init| <;> simp [hc]
      · simp [h']

theorem foldl_nearest_le (t : ℚ) :
    ∀ (l : List ℚ) (init : ℚ) (c : ℚ), c ∈ init :: l →
      |t - l.foldl (fun best x => if |t - x| < |t - best| then x else best) init| ≤
        |t - c| := by
  intro l
  induction l with
  | nil =>
      intro init c hc
      simp only [List.mem_cons, List.not_mem_nil, or_false] at hc
      simp [hc]
  | cons x xs ih =>
      intro init c hc
      rw [List.foldl_cons]
      have hstep : |t - (if |t - x| < |t - init| then x else init)| ≤ |t - init| ∧
          |t - (if |t - x| < |t - init| then x else init)| ≤ |t - x| := by
        by_cases hcmp : |t - x| < |t - init|
        · simp only [hcmp, if_true]
          exact ⟨le_of_lt hcmp, le_refl _⟩
        · simp only [hcmp, if_false]
          exact ⟨le_refl _, le_of_not_lt hcmp⟩
      rcases List.mem_cons.mp hc with h' | h'
      · rw [h']
        exact le_trans
          (ih (if |t - x| < |t - init| then x else init) _ (List.mem_cons_self _ _))
          hstep.1
      · rcases List.mem_cons.mp h' with h'' | h''
        · rw [h'']
          exact le_trans
            (ih (if |t - x| < |t - init| then x else init) _ (List.mem_cons_self _ _))
            hstep.2
        · exact ih _ c (List.mem_cons_of_mem _ h'')

theorem nearestIn_mem (t : ℚ) (l : List ℚ) (h : l ≠ []) : nearestIn t l ∈ l := by
  cases l with
  | nil => exact absurd rfl h
  | cons c cs => exact foldl_nearest_mem t cs c

theorem nearestIn_le (t : ℚ) (l : List ℚ) (c : ℚ) (hc : c ∈ l) :
    |t - nearestIn t l| ≤ |t - c| := by
  cases l with
  | nil => cases hc
  | cons a cs =>
      exact foldl_nearest_le t cs a c hc

theorem nearestIn_self (t : ℚ) (l : List ℚ) (ht : t ∈ l) : nearestIn t l = t := by
  have h := nearestIn_le t l t ht
  rw [sub_self, abs_zero] at h
  have h0 : |t - nearestIn t l| = 0 := le_antisymm h (abs_nonneg _)
  have := abs_eq_zero.mp h0
  linarith [sub_eq_zero.mp this]

theorem nearestIn_close (g : ℚ) (hg : 0 ≤ g) :
    ∀ (l : List ℚ) (a t : ℚ),
      List.Chain' (fun x y => x ≤ y ∧ y - x ≤ g) (a :: l) →
      a ≤ t → t ≤ (a :: l).getLast (List.cons_ne_nil a l) →
      |t - nearestIn t (a :: l)| ≤ g / 2 := by
  intro l
  induction l with
  | nil =>
      intro a t _ h1 h2
      simp only [List.getLast_singleton] at h2
      have : t = a := le_antisymm h2 h1
      subst this
      rw [nearestIn_self t _ (List.mem_singleton_self t), sub_self, abs_zero]
      linarith
  | cons b l' ih =>
      intro a t hchain h1 h2
      have hab : a ≤ b ∧ b - a ≤ g := (List.chain'_cons.mp hchain).1
      have hchain' : List.Chain' (fun x y => x ≤ y ∧ y - x ≤ g) (b :: l') :=
        (List.chain'_cons.mp hchain).2
      rcases le_or_lt t b with htb | htb
      · rcases le_or_lt t ((a + b) / 2) with hmid | hmid
        · have hle := nearestIn_le t (a :: b :: l') a (List.mem_cons_self _ _)
          have ha : |t - a| = t - a := abs_of_nonneg (by linarith)
          rw [ha] at hle
          linarith [hab.2]
        · have hle := nearestIn_le t (a :: b :: l') b
            (List.mem_cons_of_mem _ (List.mem_cons_self _ _))
          have hb : |t - b| = b - t := by
            rw [abs_sub_comm]
            exact abs_of_nonneg (by linarith)
          rw [hb] at hle
          linarith [hab.2]
      · have hlast : (a :: b :: l').getLast (List.cons_ne_nil _ _) =
            (b :: l').getLast (List.cons_ne_nil _ _) := List.getLast_cons _
        rw [hlast] at h2
        have hrec := ih b t hchain' (le_of_lt htb) h2
        have hmem : nearestIn t (b :: l') ∈ a :: b :: l' :=
          List.mem_cons_of_mem _ (nearestIn_mem t (b :: l') (List.cons_ne_nil _ _))
        exact le_trans (nearestIn_le t (a :: b :: l') _ hmem) hrec

/-- Absolute maximum of a block: the scale stored for it. -/
def absmax : List ℚ → ℚ
  | [] => 0
  | v :: rest => |v| ⊔ absmax rest

theorem absmax_nonneg (l : List ℚ) : 0 ≤ absmax l := by
  induction l with
  | nil => exact le_refl 0
  | cons v rest ih => exact le_trans ih (le_max_right _ _)

theorem abs_le_absmax (l : List ℚ) (v : ℚ) (hv : v ∈ l) : |v| ≤ absmax l := by
  induction l with
  | nil => cases hv
  | cons w rest ih =>
      rcases List.mem_cons.mp hv with h | h
      · subst h
        exact le_max_left _ _
      · exact le_trans (ih h) (le_max_right _ _)

theorem absmax_le (l : List ℚ) (m : ℚ) (hm : 0 ≤ m) (h : ∀ v ∈ l, |v| ≤ m) :
    absmax l ≤ m := by
  induction l with
  | nil => exact hm
  | cons v rest ih =>
      exact max_le (h v (List.mem_cons_self _ _))
        (ih fun w hw => h w (List.mem_cons_of_mem _ hw))

theorem absmax_attained (l : List ℚ) (h : absmax l ≠ 0) : ∃ v ∈ l, |v| = absmax l := by
  induction l with
  | nil => exact absurd rfl h
  | cons v rest ih =>
      rcases max_cases |v| (absmax rest) with ⟨heq, _⟩ | ⟨heq, hlt⟩
      · exact ⟨v, List.mem_cons_self _ _, heq.symm⟩
      · have hrest : absmax rest ≠ 0 := by
          intro h0
          apply h
          simpa [absmax, h0] using heq
        obtain ⟨w, hw, hww⟩ := ih hrest
        exact ⟨w, List.mem_cons_of_mem _ hw, by rw [hww]; exact heq.symm⟩

theorem absmax_eq_zero_iff (l : List ℚ) : absmax l = 0 ↔ ∀ v ∈ l, v = 0 := by
  constructor
  · intro h v hv
    have := abs_le_absmax l v hv
    rw [h] at this
    exact abs_eq_zero.mp (le_antisymm this (abs_nonneg _))
  · intro h
    exact le_antisymm (absmax_le l 0 (le_refl 0) fun v hv => by simp [h v hv])
      (absmax_nonneg l)

theorem mul_max_nonneg (c a b : ℚ) (hc : 0 ≤ c) : c * (a ⊔ b) = (c * a) ⊔ (c * b) := by
  rcases le_total a b with h | h
  · rw [max_eq_right h, max_eq_right (mul_le_mul_of_nonneg_left h hc)]
  · rw [max_eq_left h, max_eq_left (mul_le_mul_of_nonneg_left h hc)]

theorem absmax_map_mul (s : ℚ) (hs : 0 ≤ s) (l : List ℚ) :
    absmax (l.map fun c => s * c) = s * absmax l := by
  induction l with
  | nil => simp [absmax]
  | cons v rest ih =>
      simp only [List.map_cons, absmax, ih, abs_mul, abs_of_nonneg hs]
      rw [mul_max_nonneg s |v| (absmax rest) hs]

/-! ### Block-level quantization -/

/-- One QuantizedBlock: the stored scale (the block's absolute maximum) and
the NF4 code of each value. -/
structure QBlock where
  scale : ℚ
  codes : List ℚ
deriving DecidableEq

/-- Quantize one block: store its absolute maximum as the scale and map
each value, normalized by the scale, to the nearest NF4 code. -/
def quantizeBlock (b : List ℚ) : QBlock :=
  { scale := absmax b
    codes := b.map fun v => nearestIn (v / absmax b) nf4Table }

/-- Dequantize codes against a stored scale. -/
def dequantizeBlockAt (s : ℚ) (codes : List ℚ) : List ℚ :=
  codes.map fun c => s * c

/-- Dequantize one block. -/
def dequantizeBlock (qb : QBlock) : List ℚ :=
  dequantizeBlockAt qb.scale qb.codes

theorem nf4Table_ne_nil : nf4Table ≠ [] := by simp [nf4Table]

theorem zero_mem_nf4Table : (0 : ℚ) ∈ nf4Table := by norm_num [nf4Table]

theorem one_mem_nf4Table : (1 : ℚ) ∈ nf4Table := by norm_num [nf4Table]

theorem neg_one_mem_nf4Table : (-1 : ℚ) ∈ nf4Table := by norm_num [nf4Table]

theorem nf4Table_abs_le_one : ∀ c ∈ nf4Table, |c| ≤ 1 := by
  intro c hc
  simp only [nf4Table, List.mem_cons, List.not_mem_nil, or_false] at hc
  rcases hc with rfl|rfl|rfl|rfl|rfl|rfl|rfl|rfl|rfl|rfl|rfl|rfl|rfl|rfl|rfl|rfl <;>
    rw [abs_le] <;> norm_num

theorem nf4Table_chain :
    List.Chain' (fun x y => x ≤ y ∧ y - x ≤ nf4MaxGap) nf4Table := by
  simp only [nf4Table, List.chain'_cons, List.chain'_singleton, and_true]
  norm_num [nf4MaxGap]

theorem nf4_nearest_abs_le_one (t : ℚ) : |nearestIn t nf4Table| ≤ 1 :=
  nf4Table_abs_le_one _ (nearestIn_mem t nf4Table nf4Table_ne_nil)

theorem nf4_nearest_close (t : ℚ) (h1 : -1 ≤ t) (h2 : t ≤ 1) :
    |t - nearestIn t nf4Table| ≤ nf4MaxGap / 2 := by
  have h := nearestIn_close nf4MaxGap (by norm_num [nf4MaxGap])
    [-6962/10000, -5251/10000, -3949/10000, -2844/10000, -1848/10000,
     -911/10000, 0, 796/10000, 1609/10000, 2461/10000, 3379/10000,
     4407/10000, 5626/10000, 7230/10000, 1] (-1) t nf4Table_chain h1
  exact h (le_of_le_of_eq h2 (Eq.symm (show ((-1 : ℚ) ::
    [-6962/10000, -5251/10000, -3949/10000, -2844/10000, -1848/10000,
     -911/10000, 0, 796/10000, 1609/10000, 2461/10000, 3379/10000,
     4407/10000, 5626/10000, 7230/10000, 1]).getLast (List.cons_ne_nil _ _) =
       (1 : ℚ) from rfl)))

/-- Each element of a block, normalized by the block's scale, lies in
`[-1, 1]` (when the scale is nonzero). -/
theorem normalized_bounds (b : List ℚ) (v : ℚ) (hv : v ∈ b) (hs : absmax b ≠ 0) :
    -1 ≤ v / absmax b ∧ v / absmax b ≤ 1 := by
  have hpos : 0 < absmax b := lt_of_le_of_ne (absmax_nonneg b) (Ne.symm hs)
  have habs : |v| ≤ absmax b := abs_le_absmax b v hv
  have h1 : |v / absmax b| ≤ 1 := by
    rw [abs_div, abs_of_pos hpos]
    exact (div_le_one hpos).mpr habs
  exact ⟨neg_le_of_abs_le h1, le_of_abs_le h1⟩

/-- Per-element round-trip error of one block: at most half the maximum
NF4 code gap, times the block's scale. -/
theorem dequantizeBlock_roundtrip (b : List ℚ) (v : ℚ) (hv : v ∈ b) :
    |absmax b * nearestIn (v / absmax b) nf4Table - v| ≤
      absmax b * (nf4MaxGap / 2) := by
  by_cases hs : absmax b = 0
  · have hv0 : v = 0 := (absmax_eq_zero_iff b).mp hs v hv
    rw [hs, hv0]
    norm_num
  · have hpos : 0 < absmax b := lt_of_le_of_ne (absmax_nonneg b) (Ne.symm hs)
    obtain ⟨hlo, hhi⟩ := normalized_bounds b v hv hs
    have hclose := nf4_nearest_close (v / absmax b) hlo hhi
    have hv' : v = absmax b * (v / absmax b) := by
      field_simp
    calc |absmax b * nearestIn (v / absmax b) nf4Table - v|
        = |absmax b * (nearestIn (v / absmax b) nf4Table - v / absmax b)| := by
          rw [mul_sub]
          rw [← hv']
      _ = absmax b * |nearestIn (v / absmax b) nf4Table - v / absmax b| := by
          rw [abs_mul, abs_of_pos hpos]
      _ = absmax b * |v / absmax b - nearestIn (v / absmax b) nf4Table| := by
          rw [abs_sub_comm]
      _ ≤ absmax b * (nf4MaxGap / 2) :=
          mul_le_mul_of_nonneg_left hclose (le_of_lt hpos)

/-- The codes of a quantized block have absolute value at most 1, and the
absolute maximum of the codes of a nonzero block is exactly 1. -/
theorem quantizeBlock_codes_absmax (b : List ℚ) (hs : absmax b ≠ 0) :
    absmax (quantizeBlock b).codes = 1 := by
  have hpos : 0 < absmax b := lt_of_le_of_ne (absmax_nonneg b) (Ne.symm hs)
  obtain ⟨v, hv, hva⟩ := absmax_attained b hs
  apply le_antisymm
  · apply absmax_le _ 1 (by norm_num)
    intro c hc
    simp only [quantizeBlock, List.mem_map] at hc
    obtain ⟨w, _, rfl⟩ := hc
    exact nf4_nearest_abs_le_one _
  · have hcode : nearestIn (v / absmax b) nf4Table ∈ (quantizeBlock b).codes := by
      simp only [quantizeBlock, List.mem_map]
      exact ⟨v, hv, rfl⟩
    have habs1 : |nearestIn (v / absmax b) nf4Table| = 1 := by
      rcases (abs_eq (absmax_nonneg b)).mp hva with hcase | hcase
      · have hdiv : v / absmax b = 1 := by
          rw [hcase, div_self hs]
        rw [hdiv, nearestIn_self 1 nf4Table one_mem_nf4Table]
        norm_num
      · have hdiv : v / absmax b = -1 := by
          rw [hcase, neg_div, div_self hs]
        rw [hdiv, nearestIn_self (-1) nf4Table neg_one_mem_nf4Table]
        norm_num
    calc (1 : ℚ) = |nearestIn (v / absmax b) nf4Table| := habs1.symm
      _ ≤ absmax (quantizeBlock b).codes := abs_le_absmax _ _ hcode

/-- Re-quantizing a dequantized block returns exactly the same stored
scale and codes. -/
theorem map_const_zero_of_all_zero (l : List ℚ) (h : ∀ v ∈ l, v = 0) :
    l.map (fun _ => (0 : ℚ)) = l := by
  induction l with
  | nil => rfl
  | cons x xs ih =>
      have hx : x = 0 := h x (List.mem_cons_self _ _)
      have hxs := ih fun v hv => h v (List.mem_cons_of_mem _ hv)
      rw [List.map_cons, hxs, hx]

theorem quantizeBlock_idem (b : List ℚ) :
    quantizeBlock (dequantizeBlock (quantizeBlock b)) = quantizeBlock b := by
  by_cases hs : absmax b = 0
  · have hall : ∀ v ∈ b, v = 0 := (absmax_eq_zero_iff b).mp hs
    have hdeq : dequantizeBlock (quantizeBlock b) = b.map fun _ => (0 : ℚ) := by
      simp only [dequantizeBlock, dequantizeBlockAt, quantizeBlock, hs, List.map_map]
      apply List.map_congr_left
      intro v _
      simp
    have hdeqb : dequantizeBlock (quantizeBlock b) = b := by
      rw [hdeq]
      exact map_const_zero_of_all_zero b hall
    rw [hdeqb]
  · have hpos : 0 < absmax b := lt_of_le_of_ne (absmax_nonneg b) (Ne.symm hs)
    have hdeq : dequantizeBlock (quantizeBlock b) =
        (quantizeBlock b).codes.map fun c => absmax b * c := rfl
    have hnewscale : absmax (dequantizeBlock (quantizeBlock b)) = absmax b := by
      rw [hdeq, absmax_map_mul (absmax b) (le_of_lt hpos),
        quantizeBlock_codes_absmax b hs, mul_one]
    have hdeq2 : dequantizeBlock (quantizeBlock b) =
        b.map fun v => absmax b * nearestIn (v / absmax b) nf4Table := by
      rw [hdeq]
      simp only [quantizeBlock, List.map_map]
      rfl
    have hcodes : (dequantizeBlock (quantizeBlock b)).map
        (fun v => nearestIn (v / absmax b) nf4Table) =
        b.map fun v => nearestIn (v / absmax b) nf4Table := by
      rw [hdeq2, List.map_map]
      apply List.map_congr_left
      intro v _
      simp only [Function.comp_apply]
      rw [mul_div_cancel_left₀ _ hs,
        nearestIn_self _ nf4Table (nearestIn_mem _ nf4Table nf4Table_ne_nil)]
    show (⟨absmax (dequantizeBlock (quantizeBlock b)),
        (dequantizeBlock (quantizeBlock b)).map fun v =>
          nearestIn (v / absmax (dequantizeBlock (quantizeBlock b))) nf4Table⟩ : QBlock) =
      ⟨absmax b, b.map fun v => nearestIn (v / absmax b) nf4Table⟩
    rw [hnewscale, hcodes]

/-! ### Matrix-level quantization, with and without double quantization -/

theorem dequantizeBlock_quantizeBlock (b : List ℚ) :
    dequantizeBlock (quantizeBlock b) =
      b.map fun v => absmax b * nearestIn (v / absmax b) nf4Table := by
  simp only [dequantizeBlock, dequantizeBlockAt, quantizeBlock, List.map_map]
  rfl

/-- Quantize a matrix (given as its list of blocks) without double
quantization: each block keeps its raw scale. -/
def quantizeNoDq (M : List (List ℚ)) : List QBlock := M.map quantizeBlock

/-- Dequantize a matrix quantized without double quantization. -/
def dequantizeNoDq (Q : List QBlock) : List (List ℚ) := Q.map dequantizeBlock

/-- A matrix quantized with double quantization: the absolute maximum of
the block scales, the second-level code of each block scale, and the NF4
codes of each block. -/
structure DQMatrix where
  scaleAbsmax : ℚ
  scaleCodes : List ℚ
  blockCodes : List (List ℚ)
deriving DecidableEq

/-- Quantize a matrix with double quantization of the per-block scales. -/
def quantizeDq (M : List (List ℚ)) : DQMatrix :=
  { scaleAbsmax := absmax (M.map absmax)
    scaleCodes := (M.map absmax).map fun s =>
      nearestIn (s / absmax (M.map absmax)) scaleTable
    blockCodes := M.map fun b => (quantizeBlock b).codes }

/-- Dequantize a double-quantized matrix: each block's stored scale is its
second-level code times the scale absolute maximum. -/
def dequantizeDq (q : DQMatrix) : List (List ℚ) :=
  (q.scaleCodes.zip q.blockCodes).map fun p =>
    dequantizeBlockAt (p.1 * q.scaleAbsmax) p.2

theorem mem_zip_map_self {α β : Type} (f : α → β) :
    ∀ (l : List α) (p : α × β), p ∈ l.zip (l.map f) → p.2 = f p.1 ∧ p.1 ∈ l := by
  intro l
  induction l with
  | nil => intro p hp; cases hp
  | cons a rest ih =>
      intro p hp
      rw [List.map_cons, List.zip_cons_cons] at hp
      rcases List.mem_cons.mp hp with h | h
      · rw [h]
        exact ⟨rfl, List.mem_cons_self _ _⟩
      · obtain ⟨h1, h2⟩ := ih p h
        exact ⟨h1, List.mem_cons_of_mem _ h2⟩

/-! ### Second-level (scale) table lemmas -/

theorem scaleTable_def :
    scaleTable = (List.range 257).map fun k : ℕ => (k : ℚ) / 256 := rfl

theorem nearestIn_eq_of_unique (t c0 : ℚ) (l : List ℚ) (hc0 : c0 ∈ l)
    (h : ∀ c ∈ l, c ≠ c0 → |t - c0| < |t - c|) : nearestIn t l = c0 := by
  by_contra hne
  have hmem : nearestIn t l ∈ l := nearestIn_mem t l (List.ne_nil_of_mem hc0)
  have hlt := h (nearestIn t l) hmem hne
  have hle := nearestIn_le t l c0 hc0
  linarith

theorem zero_mem_scaleTable : (0 : ℚ) ∈ scaleTable := by
  rw [scaleTable_def]
  refine List.mem_map.mpr ⟨(0 : ℕ), List.mem_range.mpr ?_, ?_⟩ <;> norm_num

theorem one_mem_scaleTable : (1 : ℚ) ∈ scaleTable := by
  rw [scaleTable_def]
  refine List.mem_map.mpr ⟨(256 : ℕ), List.mem_range.mpr ?_, ?_⟩ <;> norm_num

theorem scaleTable_nearest_close (t : ℚ) (h0 : 0 ≤ t) (h1 : t ≤ 1) :
    |t - nearestIn t scaleTable| ≤ 1/512 := by
  have hk1 : ((⌊t * 256 + 1/2⌋ : ℤ) : ℚ) ≤ t * 256 + 1/2 := Int.floor_le _
  have hk2 : t * 256 + 1/2 < (⌊t * 256 + 1/2⌋ : ℤ) + 1 := Int.lt_floor_add_one _
  have hk0 : 0 ≤ ⌊t * 256 + 1/2⌋ :=
    Int.le_floor.mpr (by push_cast; linarith)
  have hk256 : ⌊t * 256 + 1/2⌋ ≤ 256 := by
    by_contra h
    push_neg at h
    have : (257 : ℚ) ≤ ((⌊t * 256 + 1/2⌋ : ℤ) : ℚ) := by exact_mod_cast h
    linarith
  obtain ⟨n, hn⟩ := Int.eq_ofNat_of_zero_le hk0
  have hn256 : n < 257 := by
    have : ((n : ℤ)) ≤ 256 := hn ▸ hk256
    omega
  have hmem : ((n : ℚ) / 256) ∈ scaleTable := by
    rw [scaleTable_def]
    exact List.mem_map.mpr ⟨n, List.mem_range.mpr hn256, rfl⟩
  have hcast : ((⌊t * 256 + 1/2⌋ : ℤ) : ℚ) = (n : ℚ) := by
    rw [hn]
    push_cast
    rfl
  rw [hcast] at hk1 hk2
  have hdist : |t - (n : ℚ) / 256| ≤ 1/512 := by
    rw [abs_le]
    constructor <;> linarith
  exact le_trans (nearestIn_le t scaleTable _ hmem) hdist

/-! ### Round-trip bounds and the double-quantization analysis -/

/-- Per-element round-trip error of a double-quantized block: at most half
an NF4 code step (scaled by the block's scale) plus half a second-level
step (scaled by the absolute maximum of all block scales). -/
theorem dq_block_element_bound (b : List ℚ) (S : ℚ) (hS0 : 0 ≤ S)
    (hsle : absmax b ≤ S) (v : ℚ) (hv : v ∈ b) :
    |nearestIn (absmax b / S) scaleTable * S * nearestIn (v / absmax b) nf4Table - v| ≤
      absmax b * (nf4MaxGap / 2) + S * (1/512) := by
  have hc1 : |nearestIn (v / absmax b) nf4Table| ≤ 1 := nf4_nearest_abs_le_one _
  have hbase : |absmax b * nearestIn (v / absmax b) nf4Table - v| ≤
      absmax b * (nf4MaxGap / 2) := dequantizeBlock_roundtrip b v hv
  have hscale : |nearestIn (absmax b / S) scaleTable * S - absmax b| ≤ S * (1/512) := by
    by_cases hS : S = 0
    · have hs0 : absmax b = 0 := le_antisymm (hS ▸ hsle) (absmax_nonneg b)
      simp [hS, hs0]
    · have hSpos : 0 < S := lt_of_le_of_ne hS0 (Ne.symm hS)
      have ht0 : 0 ≤ absmax b / S := div_nonneg (absmax_nonneg b) hS0
      have ht1 : absmax b / S ≤ 1 := (div_le_one hSpos).mpr hsle
      have hclose := scaleTable_nearest_close (absmax b / S) ht0 ht1
      have hfact : nearestIn (absmax b / S) scaleTable * S - absmax b =
          (nearestIn (absmax b / S) scaleTable - absmax b / S) * S := by
        rw [sub_mul, div_mul_cancel₀ _ hS]
      rw [hfact, abs_mul, abs_of_pos hSpos, abs_sub_comm]
      calc |absmax b / S - nearestIn (absmax b / S) scaleTable| * S ≤ (1/512) * S :=
            mul_le_mul_of_nonneg_right hclose (le_of_lt hSpos)
        _ = S * (1/512) := by ring
  calc |nearestIn (absmax b / S) scaleTable * S * nearestIn (v / absmax b) nf4Table - v|
      ≤ |nearestIn (absmax b / S) scaleTable * S * nearestIn (v / absmax b) nf4Table -
          absmax b * nearestIn (v / absmax b) nf4Table| +
        |absmax b * nearestIn (v / absmax b) nf4Table - v| := abs_sub_le _ _ _
    _ = |nearestIn (absmax b / S) scaleTable * S - absmax b| *
          |nearestIn (v / absmax b) nf4Table| +
        |absmax b * nearestIn (v / absmax b) nf4Table - v| := by
        rw [← abs_mul, sub_mul]
    _ ≤ S * (1/512) * 1 + absmax b * (nf4MaxGap / 2) := by
        have h1 : |nearestIn (absmax b / S) scaleTable * S - absmax b| *
            |nearestIn (v / absmax b) nf4Table| ≤ S * (1/512) * 1 :=
          mul_le_mul hscale hc1 (abs_nonneg _) (by positivity)
        linarith
    _ = absmax b * (nf4MaxGap / 2) + S * (1/512) := by ring

theorem dequantizeDq_quantizeDq (M : List (List ℚ)) :
    dequantizeDq (quantizeDq M) =
      M.map fun b => dequantizeBlockAt
        (nearestIn (absmax b / absmax (M.map absmax)) scaleTable *
          absmax (M.map absmax))
        (quantizeBlock b).codes := by
  simp only [dequantizeDq, quantizeDq, List.map_map]
  rw [List.zip_map', List.map_map]
  apply List.map_congr_left
  intro b _
  simp only [Function.comp_apply]

/-! ### Concrete evaluations for the double-quantization counterexample -/

theorem absmax_pair (a : ℚ) (h : 0 ≤ a) : absmax [a, a] = a := by
  simp only [absmax, abs_of_nonneg h]
  rw [max_eq_left h, max_self]

theorem nearest_small_scaleTable : nearestIn ((1 : ℚ)/1000) scaleTable = 0 := by
  apply nearestIn_eq_of_unique _ _ _ zero_mem_scaleTable
  intro c hc hne
  rw [scaleTable_def] at hc
  obtain ⟨k, hk, rfl⟩ := List.mem_map.mp hc
  have hk0 : k ≠ 0 := by
    intro h
    apply hne
    rw [h]
    norm_num
  have hk1 : (1 : ℚ) ≤ (k : ℚ) := by exact_mod_cast Nat.one_le_iff_ne_zero.mpr hk0
  have h1 : |(1 : ℚ)/1000 - 0| = 1/1000 := by
    rw [sub_zero, abs_of_pos (by norm_num)]
  have h2 : |(1 : ℚ)/1000 - (k : ℚ)/256| = (k : ℚ)/256 - 1/1000 := by
    rw [abs_sub_comm, abs_of_pos (by linarith)]
  rw [h1, h2]
  linarith

theorem nearest_one_scaleTable : nearestIn (1 : ℚ) scaleTable = 1 := by
  apply nearestIn_eq_of_unique _ _ _ one_mem_scaleTable
  intro c hc hne
  rw [scaleTable_def] at hc
  obtain ⟨k, hk, rfl⟩ := List.mem_map.mp hc
  have hklt : k < 257 := List.mem_range.mp hk
  have hkle : (k : ℚ) ≤ 256 := by exact_mod_cast Nat.lt_succ_iff.mp hklt
  have hne' : (1 : ℚ) - (k : ℚ)/256 ≠ 0 := by
    intro h
    apply hne
    linarith [h]
  have h1 : |(1 : ℚ) - 1| = 0 := by norm_num
  rw [h1]
  exact abs_pos.mpr hne'

/-- The matrix on which the double-quantized round trip violates the
one-code-step bound: one block of large values beside one block of small
values, so that the small block's quantized scale collapses to zero. -/
def dqCounterexample : List (List ℚ) := [[1, 1], [1/1000, 1/1000]]

theorem absmax_one_milli : absmax [(1 : ℚ), 1/1000] = 1 := by
  simp only [absmax]
  rw [abs_one, abs_of_pos (by norm_num : (0 : ℚ) < 1/1000)]
  rw [max_eq_left (by norm_num : (0 : ℚ) ≤ 1/1000),
    max_eq_left (by norm_num : (1 : ℚ)/1000 ≤ 1)]

theorem quantizeDq_counterexample :
    quantizeDq dqCounterexample = ⟨1, [1, 0], [[1, 1], [1, 1]]⟩ := by
  have hb1 : absmax [(1 : ℚ), 1] = 1 := absmax_pair 1 (by norm_num)
  have hb2 : absmax [(1 : ℚ)/1000, 1/1000] = 1/1000 := absmax_pair (1/1000) (by norm_num)
  have hcodes1 : (quantizeBlock [(1 : ℚ), 1]).codes = [1, 1] := by
    simp only [quantizeBlock, hb1, List.map_cons, List.map_nil, div_one]
    rw [nearestIn_self 1 nf4Table one_mem_nf4Table]
  have hcodes2 : (quantizeBlock [(1 : ℚ)/1000, 1/1000]).codes = [1, 1] := by
    simp only [quantizeBlock, hb2, List.map_cons, List.map_nil]
    rw [div_self (by norm_num : (1 : ℚ)/1000 ≠ 0)]
    rw [nearestIn_self 1 nf4Table one_mem_nf4Table]
  have hscales : dqCounterexample.map absmax = [1, 1/1000] := by
    simp only [dqCounterexample, List.map_cons, List.map_nil, hb1, hb2]
  show (⟨absmax (dqCounterexample.map absmax),
      (dqCounterexample.map absmax).map fun s =>
        nearestIn (s / absmax (dqCounterexample.map absmax)) scaleTable,
      dqCounterexample.map fun b => (quantizeBlock b).codes⟩ : DQMatrix) =
    ⟨1, [1, 0], [[1, 1], [1, 1]]⟩
  rw [hscales, absmax_one_milli]
  simp only [List.map_cons, List.map_nil, div_one, dqCounterexample]
  rw [nearest_one_scaleTable, nearest_small_scaleTable, hcodes1, hcodes2]

theorem dequantizeDq_counterexample :
    dequantizeDq (quantizeDq dqCounterexample) = [[1, 1], [0, 0]] := by
  rw [quantizeDq_counterexample]
  simp [dequantizeDq, dequantizeBlockAt]

theorem requantize_counterexample :
    quantizeDq (dequantizeDq (quantizeDq dqCounterexample)) ≠
      quantizeDq dqCounterexample := by
  have hb0 : absmax [(0 : ℚ), 0] = 0 := absmax_pair 0 (le_refl 0)
  have hb1 : absmax [(1 : ℚ), 1] = 1 := absmax_pair 1 (by norm_num)
  have hcodes0 : (quantizeBlock [(0 : ℚ), 0]).codes = [0, 0] := by
    simp only [quantizeBlock, hb0, List.map_cons, List.map_nil]
    rw [div_zero, nearestIn_self 0 nf4Table zero_mem_nf4Table]
  rw [dequantizeDq_counterexample, quantizeDq_counterexample]
  intro h
  have hbc := congrArg DQMatrix.blockCodes h
  simp only [quantizeDq, List.map_cons, List.map_nil, hcodes0] at hbc
  have h2 := List.head_eq_of_cons_eq (List.tail_eq_of_cons_eq hbc)
  simp only [List.cons.injEq] at h2
  exact absurd h2.1 (by norm_num)

/-- Counterexample to C3 as stated (double quantization on): on
`dqCounterexample` the small block's values `1/1000` dequantize to `0` — a
per-element error of `1/1000`, exceeding one code step's worth
(`absmax [1/1000, 1/1000] * nf4MaxGap`) — and re-quantizing the
dequantized matrix with the same block parameters does not return the same
stored codes. -/
theorem c3_counterexample_dq :
    dqCounterexample = [[1, 1], [(1 : ℚ)/1000, 1/1000]] ∧
      dequantizeDq (quantizeDq dqCounterexample) = [[1, 1], [0, 0]] ∧
      absmax [(1 : ℚ)/1000, 1/1000] * nf4MaxGap < |(0 : ℚ) - 1/1000| ∧
      quantizeDq (dequantizeDq (quantizeDq dqCounterexample)) ≠
        quantizeDq dqCounterexample := by
  refine ⟨rfl, dequantizeDq_counterexample, ?_, requantize_counterexample⟩
  rw [absmax_pair (1/1000) (by norm_num)]
  rw [show |(0 : ℚ) - 1/1000| = 1/1000 by rw [abs_sub_comm, sub_zero,
    abs_of_pos (by norm_num)]]
  norm_num [nf4MaxGap]

/-- Claim C3 (amended): (i) without double quantization, every element of
`dequantize (quantize M)` differs from the original by at most half the
maximum code gap times its block's scale — within one code step; (ii)
without double quantization, re-quantizing the dequantized matrix with
identical block parameters returns exactly the same stored codes and
scales; (iii) with double quantization, the per-element error is bounded by
half a code step plus half a second-level scale step times the absolute
maximum of the block scales. -/
theorem c3_roundtrip_amended :
    (∀ (M : List (List ℚ)) (p : List ℚ × List ℚ),
        p ∈ M.zip (dequantizeNoDq (quantizeNoDq M)) →
        ∀ q : ℚ × ℚ, q ∈ p.1.zip p.2 →
          |q.2 - q.1| ≤ absmax p.1 * (nf4MaxGap / 2)) ∧
    (∀ M : List (List ℚ),
        quantizeNoDq (dequantizeNoDq (quantizeNoDq M)) = quantizeNoDq M) ∧
    (∀ (M : List (List ℚ)) (p : List ℚ × List ℚ),
        p ∈ M.zip (dequantizeDq (quantizeDq M)) →
        ∀ q : ℚ × ℚ, q ∈ p.1.zip p.2 →
          |q.2 - q.1| ≤ absmax p.1 * (nf4MaxGap / 2) +
            absmax (M.map absmax) * (1/512)) := by
  refine ⟨?_, ?_, ?_⟩
  · intro M p hp q hq
    have hM : dequantizeNoDq (quantizeNoDq M) =
        M.map fun b => dequantizeBlock (quantizeBlock b) := by
      simp only [dequantizeNoDq, quantizeNoDq, List.map_map]
      rfl
    rw [hM] at hp
    obtain ⟨hp2, hp1⟩ := mem_zip_map_self _ M p hp
    rw [dequantizeBlock_quantizeBlock] at hp2
    rw [hp2] at hq
    obtain ⟨hq2, hq1⟩ := mem_zip_map_self _ p.1 q hq
    rw [hq2]
    exact dequantizeBlock_roundtrip p.1 q.1 hq1
  · intro M
    simp only [quantizeNoDq, dequantizeNoDq, List.map_map]
    apply List.map_congr_left
    intro b _
    exact quantizeBlock_idem b
  · intro M p hp q hq
    rw [dequantizeDq_quantizeDq] at hp
    obtain ⟨hp2, hp1⟩ := mem_zip_map_self _ M p hp
    have hblk : dequantizeBlockAt
        (nearestIn (absmax p.1 / absmax (M.map absmax)) scaleTable *
          absmax (M.map absmax)) (quantizeBlock p.1).codes =
        p.1.map fun v =>
          nearestIn (absmax p.1 / absmax (M.map absmax)) scaleTable *
            absmax (M.map absmax) * nearestIn (v / absmax p.1) nf4Table := by
      simp only [dequantizeBlockAt, quantizeBlock, List.map_map]
      rfl
    rw [hblk] at hp2
    rw [hp2] at hq
    obtain ⟨hq2, hq1⟩ := mem_zip_map_self _ p.1 q hq
    rw [hq2]
    have hmem : absmax p.1 ∈ M.map absmax := List.mem_map.mpr ⟨p.1, hp1, rfl⟩
    have hsle : absmax p.1 ≤ absmax (M.map absmax) := by
      have := abs_le_absmax _ _ hmem
      rwa [abs_of_nonneg (absmax_nonneg p.1)] at this
    exact dq_block_element_bound p.1 (absmax (M.map absmax))
      (absmax_nonneg _) hsle q.1 hq1

theorem roundtrip_singleton_one :
    dequantizeNoDq (quantizeNoDq [[(1 : ℚ)]]) = [[1]] := by
  have hb : absmax [(1 : ℚ)] = 1 := by
    simp only [absmax]
    rw [abs_one, max_eq_left (by norm_num : (0 : ℚ) ≤ 1)]
  simp only [quantizeNoDq, dequantizeNoDq, List.map_cons, List.map_nil]
  rw [dequantizeBlock_quantizeBlock]
  simp only [hb, List.map_cons, List.map_nil, div_one]
  rw [nearestIn_self 1 nf4Table one_mem_nf4Table, mul_one]

/-- Witness for the amended C3: on the one-block matrix `[[1]]`, whose
round trip reproduces `[[1]]` exactly, the error bound holds at the
element `1`. -/
theorem c3_roundtrip_amended_witness :
    (([(1 : ℚ)], [(1 : ℚ)]) ∈
        [[(1 : ℚ)]].zip (dequantizeNoDq (quantizeNoDq [[(1 : ℚ)]])) ∧
      ((1 : ℚ), (1 : ℚ)) ∈ [(1 : ℚ)].zip [(1 : ℚ)]) ∧
    |(1 : ℚ) - 1| ≤ absmax [(1 : ℚ)] * (nf4MaxGap / 2) :=
  ⟨⟨by rw [roundtrip_singleton_one]; simp, by simp⟩,
    c3_roundtrip_amended.1 [[(1 : ℚ)]] ([1], [1])
      (by rw [roundtrip_singleton_one]; simp) (1, 1) (by simp)⟩

end QLora
